import Mathlib

/- Shallow embedding of the soft2d core: Color (src/core/color.rs), the
Surface trait operations (src/core/surface.rs), the blit engine
(src/core/blit.rs) and the Image concrete surface (src/image.rs).
Machine integers are idealized: i32 as Int, u32 and u8 as Nat.
The blit functions are instrumented to also return the list of positions
passed to get_pixel and to set_pixel, so that access-safety claims can be
stated; the destination result is unchanged by the instrumentation. -/

namespace Soft2D

/-- Two-dimensional integer vector, modelling glam's IVec2 with i32 components
idealized as unbounded integers. -/
structure IVec2 where
  x : Int
  y : Int
deriving DecidableEq, Repr

/-- Constructor function ivec2, as in glam. -/
def ivec2 (x y : Int) : IVec2 := ⟨x, y⟩

/-- Packed 32-bit ARGB color, modelling the Rust newtype Color(u32); u32 is
modelled as Nat (the constructors keep it below 2^32 for byte inputs). -/
structure Color where
  val : Nat
deriving DecidableEq, Repr

namespace Color

/-- Color::from_rgba: pack four byte channels as A shl 24 or R shl 16 or
G shl 8 or B. -/
def from_rgba (r g b a : Nat) : Color :=
  ⟨(a <<< 24) ||| (r <<< 16) ||| (g <<< 8) ||| b⟩

/-- Color::from_rgb: opaque color, alpha 255. -/
def from_rgb (r g b : Nat) : Color := from_rgba r g b 0xFF

/-- Color::as_u32. -/
def as_u32 (c : Color) : Nat := c.val

/-- Color::from_u32. -/
def from_u32 (v : Nat) : Color := ⟨v⟩

/-- Color::a, the alpha accessor: (self.0 shr 24) cast to u8. -/
def a (c : Color) : Nat := (c.val >>> 24) % 256

end Color

/-- Result of one instrumented blit-engine call: the destination surface
afterwards, plus the positions passed to get_pixel and set_pixel, in call
order. -/
structure Trace (A : Type) where
  dst : A
  reads : List IVec2
  writes : List IVec2

/-- The three required operations of the Surface trait that a concrete
surface provides (the Rust trait's required methods). -/
structure SurfaceOps (A : Type) where
  get_pixel : A → IVec2 → Color
  set_pixel : A → IVec2 → Color → A
  size : A → IVec2

/-- Body of the inner x loop of blit_same_size. -/
def sameSizeCell {A B : Type} (opsA : SurfaceOps A) (opsB : SurfaceOps B) (src : B)
    (dst_size src_size src_pos dst_pos : IVec2) (y : Int)
    (st : Trace A) (xn : Nat) : Trace A :=
  let x : Int := xn
  let dst_offset_x := dst_pos.x + x
  if dst_offset_x < 0 ∨ dst_size.x ≤ dst_offset_x then st
  else
    let src_offset_x := src_pos.x + x
    if src_offset_x < 0 ∨ src_size.x ≤ src_offset_x then st
    else
      let rp := ivec2 src_offset_x (src_pos.y + y)
      let src_color := opsB.get_pixel src rp
      if src_color.a ≠ 0 then
        ⟨opsA.set_pixel st.dst (ivec2 dst_offset_x (dst_pos.y + y)) src_color,
         st.reads ++ [rp], st.writes ++ [ivec2 dst_offset_x (dst_pos.y + y)]⟩
      else
        ⟨st.dst, st.reads ++ [rp], st.writes⟩

/-- Body of the outer y loop of blit_same_size (row-level clipping, then the
inner x loop). -/
def sameSizeRow {A B : Type} (opsA : SurfaceOps A) (opsB : SurfaceOps B) (src : B)
    (dst_size src_size src_pos dst_pos size : IVec2)
    (st : Trace A) (yn : Nat) : Trace A :=
  let y : Int := yn
  let dst_offset_y := dst_pos.y + y
  if dst_offset_y < 0 ∨ dst_size.y ≤ dst_offset_y then st
  else
    let src_offset_y := src_pos.y + y
    if src_offset_y < 0 ∨ src_size.y ≤ src_offset_y then st
    else
      (List.range size.x.toNat).foldl
        (sameSizeCell opsA opsB src dst_size src_size src_pos dst_pos y) st

/-- Rust fn blit_same_size (src/core/blit.rs), instrumented with access
traces. The i32 loops for y in 0..size.y and x in 0..size.x are modelled by
List.range over toNat (a Rust range with nonpositive upper bound is empty). -/
def blit_same_size {A B : Type} (opsA : SurfaceOps A) (opsB : SurfaceOps B)
    (dst : A) (src : B) (src_pos dst_pos size : IVec2) : Trace A :=
  let dst_size := opsA.size dst
  let src_size := opsB.size src
  (List.range size.y.toNat).foldl
    (sameSizeRow opsA opsB src dst_size src_size src_pos dst_pos size)
    ⟨dst, [], []⟩

/-- Bit length of a natural number, fuel-driven so that the kernel can
evaluate it by structural recursion; every magnitude in this development is
far below 2^120, so fuel 128 is always enough. -/
def bitlen (fuel n : Nat) : Nat :=
  match fuel with
  | 0 => 0
  | fuel + 1 => if n = 0 then 0 else bitlen fuel (n / 2) + 1

/-- Bit length with enough fuel for this development. -/
def blen (n : Nat) : Nat := bitlen 128 n

/-- Round a/2^k to the nearest integer with ties to even, for a nonnegative
integer a; sticky records a nonzero fraction strictly below the discarded
bits (used for exact single rounding of divisions). -/
def rshiftRNE (a k : Nat) (sticky : Bool) : Nat :=
  if k = 0 then a
  else
    let d := a / 2 ^ k
    let r := a % 2 ^ k
    let half := 2 ^ (k - 1)
    if half < r then d + 1
    else if r < half then d
    else if sticky then d + 1
    else if d % 2 = 1 then d + 1 else d

/-- A finite IEEE-754 binary32 value, represented exactly as mant * 2^exp.
The constructors below keep mant = 0 or abs mant ≤ 2^24 (a 24-bit
significand after one nearest-even rounding). Every value the blit engine
actually consumes lies well inside the normal range of binary32, so neither
subnormals nor overflow to infinity can occur and are not represented. -/
structure F32 where
  mant : Int
  exp : Int
deriving DecidableEq, Repr

/-- Round the exact dyadic a * 2^e to a 24-bit significand, nearest-even
(the identity when a already fits in 24 bits). -/
def normF32 (a : Int) (e : Int) : F32 :=
  if a = 0 then ⟨0, 0⟩
  else
    let n := a.natAbs
    let L := blen n
    if L ≤ 24 then ⟨a, e⟩
    else
      let k := L - 24
      ⟨a.sign * (rshiftRNE n k false : Int), e + k⟩

/-- The Rust cast (v as f32) on an i32: nearest-even conversion, exact for
magnitudes below 2^24. -/
def f32FromInt (n : Int) : F32 := normF32 n 0

/-- IEEE binary32 division with nearest-even rounding, computed via an
exact scaled integer quotient plus remainder so the result is rounded
exactly once. A zero divisor yields the junk value 0: Rust would produce an
infinity or NaN there, but in blit_scale the divisor of a step is a
dst_size component that also bounds the loop consuming that step, so the
value is never used when it is junk. -/
def f32Div (a b : F32) : F32 :=
  if a.mant = 0 ∨ b.mant = 0 then ⟨0, 0⟩
  else
    let n := a.mant.natAbs
    let m := b.mant.natAbs
    let q := n * 2 ^ 56 / m
    let r := n * 2 ^ 56 % m
    let k := blen q - 24
    ⟨a.mant.sign * b.mant.sign * (rshiftRNE q k (r != 0) : Int),
     a.exp - b.exp - 56 + k⟩

/-- IEEE binary32 multiplication with nearest-even rounding: the product of
two 24-bit significands is exact in the integers, then rounded once. -/
def f32Mul (a b : F32) : F32 := normF32 (a.mant * b.mant) (a.exp + b.exp)

/-- The Rust cast (v as i32) on a finite f32: truncate toward zero,
saturating at the i32 range. -/
def f32TruncToI32 (v : F32) : Int :=
  let w : Int :=
    if 0 ≤ v.exp then v.mant * 2 ^ v.exp.toNat
    else v.mant.tdiv (2 ^ (-v.exp).toNat)
  if w < -2147483648 then -2147483648
  else if 2147483647 < w then 2147483647
  else w

/-- Faithful model of the Rust expression (v as f32 * step) as i32 with
step = sn as f32 / sd as f32, as blit_scale computes its sampling offsets:
the two int-to-float conversions, the division and the multiplication each
round to nearest-even binary32, and the final cast truncates toward zero
with i32 saturation. The i32 inputs themselves are idealized as unbounded
integers, as everywhere in this model. -/
def scaleIndex (v sn sd : Int) : Int :=
  f32TruncToI32 (f32Mul (f32FromInt v) (f32Div (f32FromInt sn) (f32FromInt sd)))

/-- Body of the inner x loop of blit_scale. -/
def scaleCell {A B : Type} (opsA : SurfaceOps A) (opsB : SurfaceOps B) (src : B)
    (base_size src_pos src_size dst_pos dst_size : IVec2)
    (dst_offset_y src_offset_y : Int) (st : Trace A) (xn : Nat) : Trace A :=
  let x : Int := xn
  let dst_offset_x := dst_pos.x + x
  if dst_offset_x < 0 ∨ base_size.x ≤ dst_offset_x then st
  else
    let src_offset_x := src_pos.x + scaleIndex x src_size.x dst_size.x
    let rp := ivec2 src_offset_x src_offset_y
    let src_color := opsB.get_pixel src rp
    if src_color.a ≠ 0 then
      ⟨opsA.set_pixel st.dst (ivec2 dst_offset_x dst_offset_y) src_color,
       st.reads ++ [rp], st.writes ++ [ivec2 dst_offset_x dst_offset_y]⟩
    else
      ⟨st.dst, st.reads ++ [rp], st.writes⟩

/-- Body of the outer y loop of blit_scale (destination row clipping, source
row computed by the scaled index, no source-side clipping). -/
def scaleRow {A B : Type} (opsA : SurfaceOps A) (opsB : SurfaceOps B) (src : B)
    (base_size src_pos src_size dst_pos dst_size : IVec2)
    (st : Trace A) (yn : Nat) : Trace A :=
  let y : Int := yn
  let dst_offset_y := dst_pos.y + y
  if dst_offset_y < 0 ∨ base_size.y ≤ dst_offset_y then st
  else
    let src_offset_y := src_pos.y + scaleIndex y src_size.y dst_size.y
    (List.range dst_size.x.toNat).foldl
      (scaleCell opsA opsB src base_size src_pos src_size dst_pos dst_size
        dst_offset_y src_offset_y) st

/-- Rust fn blit_scale (src/core/blit.rs), instrumented with access traces. -/
def blit_scale {A B : Type} (opsA : SurfaceOps A) (opsB : SurfaceOps B)
    (dst : A) (src : B) (src_pos src_size dst_pos dst_size : IVec2) : Trace A :=
  let base_size := opsA.size dst
  (List.range dst_size.y.toNat).foldl
    (scaleRow opsA opsB src base_size src_pos src_size dst_pos dst_size)
    ⟨dst, [], []⟩

/-- Surface::index, the canonical linear-storage mapping. -/
def Surface.index (pos : IVec2) (width : Int) : Int := pos.y * width + pos.x

/-- Default trait implementation of Surface::clear: set every pixel,
row-major. -/
def Surface.clear {A : Type} (ops : SurfaceOps A) (s : A) (color : Color) : A :=
  let size := ops.size s
  (List.range size.y.toNat).foldl (fun (s : A) (yn : Nat) =>
    (List.range size.x.toNat).foldl
      (fun (s : A) (xn : Nat) => ops.set_pixel s (ivec2 xn yn) color) s) s

/-- Surface::blit (src/core/surface.rs): resolve the optional parameters and
dispatch to one of the two blit-engine algorithms. -/
def Surface.blit {A B : Type} (opsA : SurfaceOps A) (opsB : SurfaceOps B)
    (dst : A) (src : B)
    (src_pos src_size dst_pos dst_size : Option IVec2) : Trace A :=
  let src_pos := src_pos.getD (ivec2 0 0)
  let src_size := src_size.getD (opsB.size src)
  let dst_pos := dst_pos.getD (ivec2 0 0)
  match dst_size with
  | some ds =>
    if ds = src_size then
      blit_same_size opsA opsB dst src src_pos dst_pos ds
    else
      blit_scale opsA opsB dst src src_pos src_size dst_pos ds
  | none => blit_same_size opsA opsB dst src src_pos dst_pos src_size

/-- A fully general lawful surface: a size and a pixel assignment. This models
an arbitrary Surface implementor whose get_pixel returns the most recently
set value and whose size is constant. -/
structure Surf where
  size : IVec2
  pix : IVec2 → Color

/-- The Surface operations of a Surf. -/
def Surf.ops : SurfaceOps Surf where
  get_pixel s p := s.pix p
  set_pixel s p c := ⟨s.size, fun q => if q = p then c else s.pix q⟩
  size s := s.size

/-- Rust struct Image (src/image.rs): a boxed slice of u32 pixels plus a
size, modelled as a list of Nat. -/
structure Image where
  pixels : List Nat
  size : IVec2
deriving DecidableEq, Repr

/-- Image::new (width and height are u32, modelled as Nat; the claims add the
no-overflow precondition explicitly where they need it). -/
def Image.new (width height : Nat) (color : Color) : Image :=
  ⟨List.replicate (width * height) color.as_u32, ivec2 width height⟩

/-- Image::get_pixel. Rust indexes the boxed slice, panicking out of bounds;
the model totalizes the read with getD (the in-bounds claims never rely on
the default). A negative index, which Rust would turn into a huge usize and
panic on, is likewise totalized by toNat. -/
def Image.get_pixel (img : Image) (pos : IVec2) : Color :=
  Color.from_u32 (img.pixels.getD (Surface.index pos img.size.x).toNat 0)

/-- Image::set_pixel (List.set, like the Rust slice store, leaves the list
unchanged when the index is out of range; Rust would panic there). -/
def Image.set_pixel (img : Image) (pos : IVec2) (color : Color) : Image :=
  ⟨img.pixels.set (Surface.index pos img.size.x).toNat color.as_u32, img.size⟩

/-- Image's overriding clear: self.pixels.fill(color.as_u32()), which
replaces every element of the backing slice, keeping its length. -/
def Image.clear (img : Image) (color : Color) : Image :=
  ⟨List.replicate img.pixels.length color.as_u32, img.size⟩

/-- The Surface operations of an Image. -/
def Image.ops : SurfaceOps Image :=
  ⟨Image.get_pixel, Image.set_pixel, Image.size⟩

/-- Position p lies inside a surface of the given size. -/
def inBounds (size p : IVec2) : Prop :=
  0 ≤ p.x ∧ p.x < size.x ∧ 0 ≤ p.y ∧ p.y < size.y

instance (size p : IVec2) : Decidable (inBounds size p) := by
  unfold inBounds; infer_instance

/-- The Image storage invariant: nonnegative size components and backing
length equal to width times height. -/
def Image.wf (img : Image) : Prop :=
  0 ≤ img.size.x ∧ 0 ≤ img.size.y ∧
    img.pixels.length = img.size.x.toNat * img.size.y.toNat

/-- A left fold preserves any property that every step preserves. -/
theorem foldl_inv {σ α : Type} (f : σ → α → σ) (P : σ → Prop) :
    ∀ (l : List α) (st : σ),
      (∀ s i, i ∈ l → P s → P (f s i)) → P st → P (l.foldl f st) := by
  intro l
  induction l with
  | nil => intro st _ h0; exact h0
  | cons i l ih =>
    intro st h h0
    exact ih (f st i)
      (fun s j hj hP => h s j (List.mem_cons_of_mem _ hj) hP)
      (h st i (List.mem_cons_self _ _) h0)

/-- If each step of a fold either keeps an observation E or resets it to the
fixed value v, then once the state observes v the fold keeps observing v. -/
theorem foldl_keep {σ α γ : Type} (f : σ → α → σ) (Inv : σ → Prop) (E : σ → γ)
    (v : γ) :
    ∀ (l : List α) (st : σ),
      (∀ s i, i ∈ l → Inv s → Inv (f s i)) →
      (∀ s i, i ∈ l → Inv s → E (f s i) = E s ∨ E (f s i) = v) →
      Inv st → E st = v → E (l.foldl f st) = v := by
  intro l
  induction l with
  | nil => intro st _ _ _ hv; exact hv
  | cons i l ih =>
    intro st hInv h1 h0 hv
    refine ih (f st i)
      (fun s j hj hP => hInv s j (List.mem_cons_of_mem _ hj) hP)
      (fun s j hj hP => h1 s j (List.mem_cons_of_mem _ hj) hP)
      (hInv st i (List.mem_cons_self _ _) h0) ?_
    rcases h1 st i (List.mem_cons_self _ _) h0 with h | h
    · rw [h, hv]
    · exact h

/-- Characterization of a fold each of whose steps rewrites an observation E
to the fixed value v exactly when H holds of the step index and otherwise
leaves the observation unchanged, maintaining an invariant Inv. -/
theorem foldl_char {σ α γ : Type} (f : σ → α → σ) (Inv : σ → Prop) (E : σ → γ)
    (v : γ) (H : α → Prop) [DecidablePred H] :
    ∀ (l : List α) (st : σ),
      (∀ s i, i ∈ l → Inv s → Inv (f s i)) →
      (∀ s i, i ∈ l → Inv s → H i → E (f s i) = v) →
      (∀ s i, i ∈ l → Inv s → ¬ H i → E (f s i) = E s) →
      Inv st →
      E (l.foldl f st) = if ∃ i ∈ l, H i then v else E st := by
  intro l
  induction l with
  | nil => intro st _ _ _ _; simp
  | cons i l ih =>
    intro st hInv h1 h2 h0
    by_cases hi : H i
    · rw [if_pos ⟨i, List.mem_cons_self _ _, hi⟩, List.foldl_cons]
      refine foldl_keep f Inv E v l (f st i)
        (fun s j hj hP => hInv s j (List.mem_cons_of_mem _ hj) hP)
        (fun s j hj hP => ?_)
        (hInv st i (List.mem_cons_self _ _) h0)
        (h1 st i (List.mem_cons_self _ _) h0 hi)
      by_cases hj' : H j
      · exact Or.inr (h1 s j (List.mem_cons_of_mem _ hj) hP hj')
      · exact Or.inl (h2 s j (List.mem_cons_of_mem _ hj) hP hj')
    · have hE : E (f st i) = E st := h2 st i (List.mem_cons_self _ _) h0 hi
      rw [List.foldl_cons,
        ih (f st i)
          (fun s j hj hP => hInv s j (List.mem_cons_of_mem _ hj) hP)
          (fun s j hj hP => h1 s j (List.mem_cons_of_mem _ hj) hP)
          (fun s j hj hP => h2 s j (List.mem_cons_of_mem _ hj) hP)
          (hInv st i (List.mem_cons_self _ _) h0), hE]
      by_cases he : ∃ j ∈ l, H j
      · obtain ⟨j, hj, hH⟩ := he
        rw [if_pos ⟨j, hj, hH⟩, if_pos ⟨j, List.mem_cons_of_mem _ hj, hH⟩]
      · rw [if_neg he, if_neg ?_]
        rintro ⟨j, hj, hH⟩
        rcases List.mem_cons.mp hj with rfl | hj'
        · exact hi hH
        · exact he ⟨j, hj', hH⟩

/-- The source position that blit_same_size samples for destination pixel p. -/
def sameSizeSrcPos (src_pos dst_pos p : IVec2) : IVec2 :=
  ivec2 (src_pos.x + (p.x - dst_pos.x)) (src_pos.y + (p.y - dst_pos.y))

/-- Destination pixel p receives a write in blit_same_size: the offset lies in
the requested rectangle, p is inside the destination, the sampled source
position is inside the source, and the sampled source pixel is not fully
transparent. -/
def sameSizeHit (dst src : Surf) (src_pos dst_pos size p : IVec2) : Prop :=
  0 ≤ p.x - dst_pos.x ∧ p.x - dst_pos.x < size.x ∧
  0 ≤ p.y - dst_pos.y ∧ p.y - dst_pos.y < size.y ∧
  inBounds dst.size p ∧ inBounds src.size (sameSizeSrcPos src_pos dst_pos p) ∧
  (src.pix (sameSizeSrcPos src_pos dst_pos p)).a ≠ 0

instance (dst src : Surf) (src_pos dst_pos size p : IVec2) :
    Decidable (sameSizeHit dst src src_pos dst_pos size p) := by
  unfold sameSizeHit; infer_instance

/-- Hit predicate of the inner x loop of blit_same_size at destination pixel
p, as a function of the loop counter xn, for a fixed row offset y. -/
def innerHitX (src : Surf) (dsz ssz sp dp : IVec2) (y : Int) (p : IVec2)
    (xn : Nat) : Prop :=
  (xn : Int) = p.x - dp.x ∧ p.y = dp.y + y ∧
  0 ≤ p.x ∧ p.x < dsz.x ∧
  0 ≤ sp.x + (p.x - dp.x) ∧ sp.x + (p.x - dp.x) < ssz.x ∧
  (src.pix (ivec2 (sp.x + (p.x - dp.x)) (sp.y + y))).a ≠ 0

instance (src : Surf) (dsz ssz sp dp : IVec2) (y : Int) (p : IVec2) (xn : Nat) :
    Decidable (innerHitX src dsz ssz sp dp y p xn) := by
  unfold innerHitX; infer_instance

/-- What the inner x loop of blit_same_size does to destination pixel p. -/
theorem sameSize_inner_char (src : Surf) (dsz ssz sp dp : IVec2) (y : Int)
    (m : Nat) (st : Trace Surf) (p : IVec2) :
    ((List.range m).foldl
        (sameSizeCell Surf.ops Surf.ops src dsz ssz sp dp y) st).dst.pix p =
      if ∃ xn ∈ List.range m, innerHitX src dsz ssz sp dp y p xn
      then src.pix (ivec2 (sp.x + (p.x - dp.x)) (sp.y + y))
      else st.dst.pix p := by
  refine foldl_char (sameSizeCell Surf.ops Surf.ops src dsz ssz sp dp y)
    (fun _ => True) (fun st : Trace Surf => st.dst.pix p)
    (src.pix (ivec2 (sp.x + (p.x - dp.x)) (sp.y + y)))
    (innerHitX src dsz ssz sp dp y p)
    (List.range m) st (fun _ _ _ _ => trivial) ?_ ?_ trivial
  · rintro s xn _ _ ⟨hxe, hye, hd0, hd1, hs0, hs1, ha⟩
    simp only [sameSizeCell, Surf.ops]
    rw [hxe, if_neg (by omega), if_neg (by omega), if_pos ha]
    have hw : ivec2 (dp.x + (p.x - dp.x)) (dp.y + y) = p := by
      rw [ivec2, show dp.x + (p.x - dp.x) = p.x from by omega, ← hye]
    rw [hw]
    simp
  · rintro s xn _ _ hH
    simp only [sameSizeCell, Surf.ops]
    split_ifs with hc1 hc2 hc3
    · rfl
    · rfl
    · have hne : p ≠ ivec2 (dp.x + (xn : Int)) (dp.y + y) := by
        intro hpe
        have hx : p.x = dp.x + (xn : Int) := by rw [hpe]; rfl
        have hy : p.y = dp.y + y := by rw [hpe]; rfl
        exact hH ⟨by omega, hy, by omega, by omega, by omega, by omega,
          by rw [show sp.x + (p.x - dp.x) = sp.x + (xn : Int) from by omega]
             exact hc3⟩
      simp [hne]
    · rfl

/-- Hit predicate of the outer y loop of blit_same_size at destination pixel
p, as a function of the loop counter yn. -/
def rowHitY (src : Surf) (dsz ssz sp dp size p : IVec2) (yn : Nat) : Prop :=
  (yn : Int) = p.y - dp.y ∧ 0 ≤ p.y ∧ p.y < dsz.y ∧
  0 ≤ sp.y + (p.y - dp.y) ∧ sp.y + (p.y - dp.y) < ssz.y ∧
  ∃ xn ∈ List.range size.x.toNat,
    innerHitX src dsz ssz sp dp (p.y - dp.y) p xn

instance (src : Surf) (dsz ssz sp dp size p : IVec2) (yn : Nat) :
    Decidable (rowHitY src dsz ssz sp dp size p yn) := by
  unfold rowHitY; infer_instance

/-- Per-pixel characterization of blit_same_size on function-backed
surfaces: destination pixel p holds the sampled source color exactly when
sameSizeHit holds of p, and is otherwise unchanged. -/
theorem sameSize_pix_char (dst src : Surf) (sp dp size p : IVec2) :
    (blit_same_size Surf.ops Surf.ops dst src sp dp size).dst.pix p =
      if sameSizeHit dst src sp dp size p
      then src.pix (sameSizeSrcPos sp dp p)
      else dst.pix p := by
  have hchar := foldl_char
    (sameSizeRow Surf.ops Surf.ops src dst.size src.size sp dp size)
    (fun _ => True) (fun st : Trace Surf => st.dst.pix p)
    (src.pix (sameSizeSrcPos sp dp p))
    (rowHitY src dst.size src.size sp dp size p)
    (List.range size.y.toNat) ⟨dst, [], []⟩ (fun _ _ _ _ => trivial) ?_ ?_ trivial
  · have hiff : (∃ yn ∈ List.range size.y.toNat,
        rowHitY src dst.size src.size sp dp size p yn) ↔
        sameSizeHit dst src sp dp size p := by
      unfold rowHitY innerHitX sameSizeHit inBounds sameSizeSrcPos
      constructor
      · rintro ⟨yn, hm, hye, hd0, hd1, hs0, hs1, xn, hxm, hxe, -, hpd0, hpd1,
          hps0, hps1, ha⟩
        have hym : yn < size.y.toNat := List.mem_range.mp hm
        have hxm' : xn < size.x.toNat := List.mem_range.mp hxm
        exact ⟨by omega, by omega, by omega, by omega, ⟨hpd0, hpd1, hd0, hd1⟩,
          ⟨hps0, hps1, hs0, hs1⟩, ha⟩
      · rintro ⟨hx0, hx1, hy0, hy1, ⟨hpd0, hpd1, hpd2, hpd3⟩,
          ⟨hps0, hps1, hps2, hps3⟩, ha⟩
        exact ⟨(p.y - dp.y).toNat, List.mem_range.mpr (by omega), by omega,
          hpd2, hpd3, hps2, hps3,
          (p.x - dp.x).toNat, List.mem_range.mpr (by omega), by omega,
          by omega, hpd0, hpd1, hps0, hps1, ha⟩
    exact hchar.trans (if_congr hiff rfl rfl)
  · rintro s yn - - ⟨hye, hd0, hd1, hs0, hs1, hex⟩
    simp only [sameSizeRow]
    rw [hye, if_neg (by omega), if_neg (by omega), sameSize_inner_char,
      if_pos hex]
    rfl
  · rintro s yn - - hH
    simp only [sameSizeRow]
    split_ifs with hc1 hc2
    · rfl
    · rfl
    · rw [sameSize_inner_char, if_neg ?_]
      rintro ⟨xn, hxm, hin⟩
      have hyy : (yn : Int) = p.y - dp.y := by
        have := hin.2.1
        omega
      rw [hyy] at hin
      exact hH ⟨hyy, by omega, by omega, by omega, by omega, xn, hxm, hin⟩

/-- The source position that blit_scale samples for destination pixel p. -/
def scaleSrcPos (sp ssz dp dsz p : IVec2) : IVec2 :=
  ivec2 (sp.x + scaleIndex (p.x - dp.x) ssz.x dsz.x)
    (sp.y + scaleIndex (p.y - dp.y) ssz.y dsz.y)

/-- Destination pixel p receives a write in blit_scale: the offset lies in the
destination rectangle, p is inside the destination surface, and the sampled
source pixel is not fully transparent. There is no source-side clipping. -/
def scaleHit (dst src : Surf) (sp ssz dp dsz p : IVec2) : Prop :=
  0 ≤ p.x - dp.x ∧ p.x - dp.x < dsz.x ∧
  0 ≤ p.y - dp.y ∧ p.y - dp.y < dsz.y ∧
  inBounds dst.size p ∧
  (src.pix (scaleSrcPos sp ssz dp dsz p)).a ≠ 0

instance (dst src : Surf) (sp ssz dp dsz p : IVec2) :
    Decidable (scaleHit dst src sp ssz dp dsz p) := by
  unfold scaleHit; infer_instance

/-- Hit predicate of the inner x loop of blit_scale at destination pixel p,
for fixed destination and source row offsets doy and soy. -/
def scaleInnerHitX (src : Surf) (bsz sp ssz dp dsz : IVec2) (doy soy : Int)
    (p : IVec2) (xn : Nat) : Prop :=
  (xn : Int) = p.x - dp.x ∧ p.y = doy ∧
  0 ≤ p.x ∧ p.x < bsz.x ∧
  (src.pix (ivec2 (sp.x + scaleIndex (p.x - dp.x) ssz.x dsz.x) soy)).a ≠ 0

instance (src : Surf) (bsz sp ssz dp dsz : IVec2) (doy soy : Int) (p : IVec2)
    (xn : Nat) : Decidable (scaleInnerHitX src bsz sp ssz dp dsz doy soy p xn) := by
  unfold scaleInnerHitX; infer_instance

/-- What the inner x loop of blit_scale does to destination pixel p. -/
theorem scale_inner_char (src : Surf) (bsz sp ssz dp dsz : IVec2)
    (doy soy : Int) (m : Nat) (st : Trace Surf) (p : IVec2) :
    ((List.range m).foldl
        (scaleCell Surf.ops Surf.ops src bsz sp ssz dp dsz doy soy) st).dst.pix p =
      if ∃ xn ∈ List.range m, scaleInnerHitX src bsz sp ssz dp dsz doy soy p xn
      then src.pix (ivec2 (sp.x + scaleIndex (p.x - dp.x) ssz.x dsz.x) soy)
      else st.dst.pix p := by
  refine foldl_char (scaleCell Surf.ops Surf.ops src bsz sp ssz dp dsz doy soy)
    (fun _ => True) (fun st : Trace Surf => st.dst.pix p)
    (src.pix (ivec2 (sp.x + scaleIndex (p.x - dp.x) ssz.x dsz.x) soy))
    (scaleInnerHitX src bsz sp ssz dp dsz doy soy p)
    (List.range m) st (fun _ _ _ _ => trivial) ?_ ?_ trivial
  · rintro s xn - - ⟨hxe, hye, hd0, hd1, ha⟩
    simp only [scaleCell, Surf.ops]
    rw [hxe, if_neg (by omega), if_pos ha]
    have hw : ivec2 (dp.x + (p.x - dp.x)) doy = p := by
      rw [ivec2, show dp.x + (p.x - dp.x) = p.x from by omega, ← hye]
    rw [hw]
    simp
  · rintro s xn - - hH
    simp only [scaleCell, Surf.ops]
    split_ifs with hc1 hc2
    · rfl
    · have hne : p ≠ ivec2 (dp.x + (xn : Int)) doy := by
        intro hpe
        have hx : p.x = dp.x + (xn : Int) := by rw [hpe]; rfl
        have hy : p.y = doy := by rw [hpe]; rfl
        exact hH ⟨by omega, hy, by omega, by omega,
          by rw [show p.x - dp.x = (xn : Int) from by omega]; exact hc2⟩
      simp [hne]
    · rfl

/-- Hit predicate of the outer y loop of blit_scale at destination pixel p. -/
def scaleRowHitY (src : Surf) (bsz sp ssz dp dsz p : IVec2) (yn : Nat) : Prop :=
  (yn : Int) = p.y - dp.y ∧ 0 ≤ p.y ∧ p.y < bsz.y ∧
  ∃ xn ∈ List.range dsz.x.toNat,
    scaleInnerHitX src bsz sp ssz dp dsz (dp.y + (p.y - dp.y))
      (sp.y + scaleIndex (p.y - dp.y) ssz.y dsz.y) p xn

instance (src : Surf) (bsz sp ssz dp dsz p : IVec2) (yn : Nat) :
    Decidable (scaleRowHitY src bsz sp ssz dp dsz p yn) := by
  unfold scaleRowHitY; infer_instance

/-- Per-pixel characterization of blit_scale on function-backed surfaces:
destination pixel p holds the source color sampled at scaleSrcPos exactly
when scaleHit holds of p, and is otherwise unchanged. -/
theorem scale_pix_char (dst src : Surf) (sp ssz dp dsz p : IVec2) :
    (blit_scale Surf.ops Surf.ops dst src sp ssz dp dsz).dst.pix p =
      if scaleHit dst src sp ssz dp dsz p
      then src.pix (scaleSrcPos sp ssz dp dsz p)
      else dst.pix p := by
  have hchar := foldl_char
    (scaleRow Surf.ops Surf.ops src dst.size sp ssz dp dsz)
    (fun _ => True) (fun st : Trace Surf => st.dst.pix p)
    (src.pix (scaleSrcPos sp ssz dp dsz p))
    (scaleRowHitY src dst.size sp ssz dp dsz p)
    (List.range dsz.y.toNat) ⟨dst, [], []⟩ (fun _ _ _ _ => trivial) ?_ ?_ trivial
  · have hiff : (∃ yn ∈ List.range dsz.y.toNat,
        scaleRowHitY src dst.size sp ssz dp dsz p yn) ↔
        scaleHit dst src sp ssz dp dsz p := by
      unfold scaleRowHitY scaleInnerHitX scaleHit inBounds scaleSrcPos
      constructor
      · rintro ⟨yn, hm, hye, hd0, hd1, xn, hxm, hxe, -, hpd0, hpd1, ha⟩
        have hym : yn < dsz.y.toNat := List.mem_range.mp hm
        have hxm' : xn < dsz.x.toNat := List.mem_range.mp hxm
        exact ⟨by omega, by omega, by omega, by omega,
          ⟨hpd0, hpd1, hd0, hd1⟩, ha⟩
      · rintro ⟨hx0, hx1, hy0, hy1, ⟨hpd0, hpd1, hpd2, hpd3⟩, ha⟩
        exact ⟨(p.y - dp.y).toNat, List.mem_range.mpr (by omega), by omega,
          hpd2, hpd3,
          (p.x - dp.x).toNat, List.mem_range.mpr (by omega), by omega,
          by omega, hpd0, hpd1, ha⟩
    exact hchar.trans (if_congr hiff rfl rfl)
  · rintro s yn - - ⟨hye, hd0, hd1, hex⟩
    simp only [scaleRow]
    rw [hye, if_neg (by omega), scale_inner_char, if_pos hex]
    rfl
  · rintro s yn - - hH
    simp only [scaleRow]
    split_ifs with hc1
    · rfl
    · rw [scale_inner_char, if_neg ?_]
      rintro ⟨xn, hxm, hin⟩
      have hyy : (yn : Int) = p.y - dp.y := by
        have := hin.2.1
        omega
      rw [hyy] at hin
      exact hH ⟨hyy, by omega, by omega, xn, hxm, hin⟩

/-- Every get_pixel of blit_same_size is inside the source bounds and every
set_pixel is inside the destination bounds, for all arguments whatsoever. -/
theorem sameSize_trace_bounds {A B : Type} (opsA : SurfaceOps A)
    (opsB : SurfaceOps B) (dst : A) (src : B) (sp dp size : IVec2) :
    (∀ q ∈ (blit_same_size opsA opsB dst src sp dp size).reads,
        inBounds (opsB.size src) q) ∧
    (∀ q ∈ (blit_same_size opsA opsB dst src sp dp size).writes,
        inBounds (opsA.size dst) q) := by
  have h := foldl_inv
    (sameSizeRow opsA opsB src (opsA.size dst) (opsB.size src) sp dp size)
    (fun st : Trace A => (∀ q ∈ st.reads, inBounds (opsB.size src) q) ∧
      (∀ q ∈ st.writes, inBounds (opsA.size dst) q))
    (List.range size.y.toNat) ⟨dst, [], []⟩ ?_ ⟨by simp, by simp⟩
  · exact h
  · rintro st yn hym hP
    simp only [sameSizeRow]
    split_ifs with hc1 hc2
    · exact hP
    · exact hP
    · refine foldl_inv _ (fun st : Trace A =>
          (∀ q ∈ st.reads, inBounds (opsB.size src) q) ∧
          (∀ q ∈ st.writes, inBounds (opsA.size dst) q)) _ st ?_ hP
      rintro s xn hxm hQ
      simp only [sameSizeCell]
      split_ifs with hd1 hd2 hd3
      · exact hQ
      · exact hQ
      · refine ⟨?_, ?_⟩
        · intro q hq
          rcases List.mem_append.mp hq with h' | h'
          · exact hQ.1 q h'
          · rw [List.mem_singleton] at h'
            subst h'
            simp only [inBounds, ivec2]
            omega
        · intro q hq
          rcases List.mem_append.mp hq with h' | h'
          · exact hQ.2 q h'
          · rw [List.mem_singleton] at h'
            subst h'
            simp only [inBounds, ivec2]
            omega
      · refine ⟨?_, hQ.2⟩
        intro q hq
        rcases List.mem_append.mp hq with h' | h'
        · exact hQ.1 q h'
        · rw [List.mem_singleton] at h'
          subst h'
          simp only [inBounds, ivec2]
          omega

/-- Every set_pixel of blit_scale is inside the destination bounds, for all
arguments whatsoever: the write coordinates come from the clip checks alone
and involve no f32 arithmetic. -/
theorem scale_writes_bounds {A B : Type} (opsA : SurfaceOps A)
    (opsB : SurfaceOps B) (dst : A) (src : B) (sp ssz dp dsz : IVec2) :
    ∀ q ∈ (blit_scale opsA opsB dst src sp ssz dp dsz).writes,
      inBounds (opsA.size dst) q := by
  have h := foldl_inv
    (scaleRow opsA opsB src (opsA.size dst) sp ssz dp dsz)
    (fun st : Trace A => ∀ q ∈ st.writes, inBounds (opsA.size dst) q)
    (List.range dsz.y.toNat) ⟨dst, [], []⟩ ?_ (by simp)
  · exact h
  · rintro st yn hym hP
    simp only [scaleRow]
    split_ifs with hc1
    · exact hP
    · refine foldl_inv _ (fun st : Trace A =>
          ∀ q ∈ st.writes, inBounds (opsA.size dst) q) _ st ?_ hP
      rintro s xn hxm hQ
      simp only [scaleCell]
      split_ifs with hd1 hd2
      · exact hQ
      · intro q hq
        rcases List.mem_append.mp hq with h' | h'
        · exact hQ q h'
        · rw [List.mem_singleton] at h'
          subst h'
          simp only [inBounds, ivec2]
          omega
      · exact hQ

/-- A blit_same_size over an empty requested rectangle does nothing: no
reads, no writes, destination returned unchanged. -/
theorem sameSize_zero {A B : Type} (opsA : SurfaceOps A) (opsB : SurfaceOps B)
    (dst : A) (src : B) (sp dp size : IVec2)
    (h : size.x ≤ 0 ∨ size.y ≤ 0) :
    blit_same_size opsA opsB dst src sp dp size = ⟨dst, [], []⟩ := by
  rcases h with hx | hy
  · refine foldl_inv _ (fun st : Trace A => st = ⟨dst, [], []⟩) _ _ ?_ rfl
    rintro s yn - rfl
    simp only [sameSizeRow, Int.toNat_of_nonpos hx, List.range_zero,
      List.foldl_nil]
    split_ifs <;> rfl
  · simp [blit_same_size, Int.toNat_of_nonpos hy]

/-- A blit_scale over an empty destination rectangle does nothing: no reads,
no writes, destination returned unchanged (in particular the step ratios,
whose f32 computation would divide by zero when dst_size has a zero
component, are never consumed). -/
theorem scale_zero {A B : Type} (opsA : SurfaceOps A) (opsB : SurfaceOps B)
    (dst : A) (src : B) (sp ssz dp dsz : IVec2)
    (h : dsz.x ≤ 0 ∨ dsz.y ≤ 0) :
    blit_scale opsA opsB dst src sp ssz dp dsz = ⟨dst, [], []⟩ := by
  rcases h with hx | hy
  · refine foldl_inv _ (fun st : Trace A => st = ⟨dst, [], []⟩) _ _ ?_ rfl
    rintro s yn - rfl
    simp only [scaleRow, Int.toNat_of_nonpos hx, List.range_zero,
      List.foldl_nil]
    split_ifs <;> rfl
  · simp [blit_scale, Int.toNat_of_nonpos hy]

/-- Any property of the destination preserved by set_pixel is preserved by
blit_same_size. -/
theorem sameSize_dst_inv {A B : Type} (opsA : SurfaceOps A)
    (opsB : SurfaceOps B) (P : A → Prop)
    (hset : ∀ s q c, P s → P (opsA.set_pixel s q c))
    (dst : A) (src : B) (sp dp size : IVec2) (h0 : P dst) :
    P (blit_same_size opsA opsB dst src sp dp size).dst := by
  refine foldl_inv _ (fun st : Trace A => P st.dst) _ _ ?_ h0
  rintro st yn - hP
  simp only [sameSizeRow]
  split_ifs
  · exact hP
  · exact hP
  · refine foldl_inv _ (fun st : Trace A => P st.dst) _ st ?_ hP
    rintro s xn - hQ
    simp only [sameSizeCell]
    split_ifs
    · exact hQ
    · exact hQ
    · exact hset _ _ _ hQ
    · exact hQ

/-- Any property of the destination preserved by set_pixel is preserved by
blit_scale. -/
theorem scale_dst_inv {A B : Type} (opsA : SurfaceOps A)
    (opsB : SurfaceOps B) (P : A → Prop)
    (hset : ∀ s q c, P s → P (opsA.set_pixel s q c))
    (dst : A) (src : B) (sp ssz dp dsz : IVec2) (h0 : P dst) :
    P (blit_scale opsA opsB dst src sp ssz dp dsz).dst := by
  refine foldl_inv _ (fun st : Trace A => P st.dst) _ _ ?_ h0
  rintro st yn - hP
  simp only [scaleRow]
  split_ifs
  · exact hP
  · refine foldl_inv _ (fun st : Trace A => P st.dst) _ st ?_ hP
    rintro s xn - hQ
    simp only [scaleCell]
    split_ifs
    · exact hQ
    · exact hset _ _ _ hQ
    · exact hQ

/-- Any property preserved by set_pixel is preserved by the default
Surface::clear loop. -/
theorem clear_inv {A : Type} (ops : SurfaceOps A) (P : A → Prop)
    (hset : ∀ s q c, P s → P (ops.set_pixel s q c))
    (s : A) (color : Color) (h0 : P s) : P (Surface.clear ops s color) := by
  refine foldl_inv _ P _ _ ?_ h0
  rintro t yn - hP
  refine foldl_inv _ P _ _ ?_ hP
  rintro u xn - hQ
  exact hset _ _ _ hQ

/-- The default-clear loop leaves the size of a Surf unchanged. -/
theorem clear_size_surf (s : Surf) (color : Color) :
    (Surface.clear Surf.ops s color).size = s.size :=
  clear_inv Surf.ops (fun t => t.size = s.size) (fun _ _ _ h => h) s color rfl

/-- Per-pixel characterization of the default Surface::clear loop on a
function-backed surface: every in-bounds pixel becomes the clear color, all
other positions are untouched. -/
theorem clear_pix_char (s : Surf) (color : Color) (p : IVec2) :
    (Surface.clear Surf.ops s color).pix p =
      if inBounds s.size p then color else s.pix p := by
  have hchar := foldl_char
    (fun t (yn : Nat) => (List.range s.size.x.toNat).foldl
      (fun t (xn : Nat) => Surf.ops.set_pixel t (ivec2 xn yn) color) t)
    (fun _ => True) (fun t : Surf => t.pix p) color
    (fun yn : Nat => (yn : Int) = p.y ∧ 0 ≤ p.x ∧ p.x < s.size.x)
    (List.range s.size.y.toNat) s (fun _ _ _ _ => trivial) ?_ ?_ trivial
  · have hiff : (∃ yn ∈ List.range s.size.y.toNat,
        (yn : Int) = p.y ∧ 0 ≤ p.x ∧ p.x < s.size.x) ↔ inBounds s.size p := by
      unfold inBounds
      constructor
      · rintro ⟨yn, hm, hye, hx0, hx1⟩
        have := List.mem_range.mp hm
        exact ⟨hx0, hx1, by omega, by omega⟩
      · rintro ⟨hx0, hx1, hy0, hy1⟩
        exact ⟨p.y.toNat, List.mem_range.mpr (by omega), by omega, hx0, hx1⟩
    exact hchar.trans (if_congr hiff rfl rfl)
  · rintro t yn - - ⟨hye, hx0, hx1⟩
    have hinner := foldl_char
      (fun t (xn : Nat) => Surf.ops.set_pixel t (ivec2 xn yn) color)
      (fun _ => True) (fun t : Surf => t.pix p) color
      (fun xn : Nat => (xn : Int) = p.x)
      (List.range s.size.x.toNat) t (fun _ _ _ _ => trivial) ?_ ?_ trivial
    · refine hinner.trans ?_
      rw [if_pos ⟨p.x.toNat, List.mem_range.mpr (by omega), by omega⟩]
    · rintro u xn - - hxe
      simp only [Surf.ops]
      have hw : ivec2 (xn : Int) (yn : Int) = p := by
        rw [ivec2, hxe, hye]
      rw [hw]
      simp
    · rintro u xn - - hxe
      simp only [Surf.ops]
      have hne : p ≠ ivec2 (xn : Int) (yn : Int) := by
        intro hpe
        exact hxe (by rw [hpe]; rfl)
      simp [hne]
  · rintro t yn - - hH
    have hinner := foldl_char
      (fun t (xn : Nat) => Surf.ops.set_pixel t (ivec2 xn yn) color)
      (fun _ => True) (fun t : Surf => t.pix p) color
      (fun xn : Nat => (xn : Int) = p.x ∧ (yn : Int) = p.y)
      (List.range s.size.x.toNat) t (fun _ _ _ _ => trivial) ?_ ?_ trivial
    · refine hinner.trans ?_
      rw [if_neg ?_]
      rintro ⟨xn, hxm, hxe, hye⟩
      have := List.mem_range.mp hxm
      exact hH ⟨hye, by omega, by omega⟩
    · rintro u xn - - ⟨hxe, hye⟩
      simp only [Surf.ops]
      have hw : ivec2 (xn : Int) (yn : Int) = p := by
        rw [ivec2, hxe, hye]
      rw [hw]
      simp
    · rintro u xn - - hxe
      simp only [Surf.ops]
      have hne : p ≠ ivec2 (xn : Int) (yn : Int) := by
        intro hpe
        refine hxe ⟨by rw [hpe]; rfl, by rw [hpe]; rfl⟩
      simp [hne]

/-- Setting one list element, observed through getD. -/
theorem getD_set_char (l : List Nat) (i t v : Nat) :
    (l.set i v).getD t 0 = if i = t ∧ t < l.length then v else l.getD t 0 := by
  by_cases ht : t < l.length
  · rw [List.getD_eq_getElem _ _ (by simpa using ht),
      List.getD_eq_getElem _ _ ht, List.getElem_set]
    by_cases hit : i = t
    · simp [hit, ht]
    · simp [hit]
  · rw [List.getD_eq_default _ _ (by simpa using Nat.le_of_not_lt ht),
      List.getD_eq_default _ _ (Nat.le_of_not_lt ht)]
    simp [ht]

/-- Image set_pixel preserves the size field and the storage length. -/
theorem image_set_inv (img u : Image) (q : IVec2) (c : Color)
    (hu : u.size = img.size ∧ u.pixels.length = img.pixels.length) :
    (Image.ops.set_pixel u q c).size = img.size ∧
    (Image.ops.set_pixel u q c).pixels.length = img.pixels.length := by
  refine ⟨hu.1, ?_⟩
  show (u.pixels.set (Surface.index q u.size.x).toNat c.val).length =
    img.pixels.length
  rw [List.length_set]
  exact hu.2

/-- The default-clear loop on an Image preserves size and storage length. -/
theorem image_clear_loop_inv (img : Image) (color : Color) :
    (Surface.clear Image.ops img color).size = img.size ∧
    (Surface.clear Image.ops img color).pixels.length = img.pixels.length :=
  clear_inv Image.ops
    (fun t => t.size = img.size ∧ t.pixels.length = img.pixels.length)
    (fun s q c h => image_set_inv img s q c h)
    img color ⟨rfl, rfl⟩

/-- One row of the default-clear loop on an Image, observed through one
backing-array slot: the slots of row yn are set to the clear color. -/
theorem image_row_getD (img : Image) (color : Color) (s : Image) (yn : Nat)
    (hwx : 0 ≤ img.size.x)
    (hInv : s.size = img.size ∧ s.pixels.length = img.pixels.length) (t : Nat) :
    ((List.range (Image.ops.size img).x.toNat).foldl
        (fun s (xn : Nat) => Image.ops.set_pixel s (ivec2 xn yn) color)
        s).pixels.getD t 0 =
      if ∃ xn ∈ List.range img.size.x.toNat,
          yn * img.size.x.toNat + xn = t ∧ t < img.pixels.length
      then color.val else s.pixels.getD t 0 := by
  have hidx : ∀ u : Image, u.size = img.size → ∀ xn : Nat,
      (Surface.index (ivec2 (xn : Int) (yn : Int)) u.size.x).toNat =
        yn * img.size.x.toNat + xn := by
    intro u hu xn
    rw [hu]
    simp only [Surface.index, ivec2]
    rw [show img.size.x = ((img.size.x.toNat : Nat) : Int) from
      (Int.toNat_of_nonneg hwx).symm]
    rw [show (yn : Int) * ((img.size.x.toNat : Nat) : Int) + (xn : Int) =
      ((yn * img.size.x.toNat + xn : Nat) : Int) from by push_cast; ring]
    exact Int.toNat_natCast _
  refine (foldl_char
    (fun s (xn : Nat) => Image.ops.set_pixel s (ivec2 xn yn) color)
    (fun s : Image => s.size = img.size ∧ s.pixels.length = img.pixels.length)
    (fun s : Image => s.pixels.getD t 0) color.val
    (fun xn : Nat => yn * img.size.x.toNat + xn = t ∧ t < img.pixels.length)
    (List.range img.size.x.toNat) s ?_ ?_ ?_ hInv)
  · rintro u xn - hu
    exact image_set_inv img u _ _ hu
  · rintro u xn - hu ⟨hie, hts⟩
    show (u.pixels.set
        (Surface.index (ivec2 (xn : Int) (yn : Int)) u.size.x).toNat
        color.val).getD t 0 = color.val
    rw [getD_set_char, hidx u hu.1 xn,
      if_pos ⟨hie, by rw [hu.2]; exact hts⟩]
  · rintro u xn - hu hH
    show (u.pixels.set
        (Surface.index (ivec2 (xn : Int) (yn : Int)) u.size.x).toNat
        color.val).getD t 0 = u.pixels.getD t 0
    rw [getD_set_char, hidx u hu.1 xn, if_neg ?_]
    rintro ⟨hie, hts⟩
    exact hH ⟨hie, by rw [← hu.2]; exact hts⟩

/-- What the default-clear loop does to one backing-array slot of an Image:
every index below the storage length becomes the clear color. -/
theorem image_clear_loop_getD (img : Image) (color : Color) (h : img.wf)
    (t : Nat) :
    (Surface.clear Image.ops img color).pixels.getD t 0 =
      if t < img.pixels.length then color.val else img.pixels.getD t 0 := by
  obtain ⟨hwx, hwy, hlen⟩ := h
  have hchar := foldl_char
    (fun (s : Image) (yn : Nat) =>
      (List.range (Image.ops.size img).x.toNat).foldl
        (fun (s : Image) (xn : Nat) =>
          Image.ops.set_pixel s (ivec2 xn yn) color) s)
    (fun s : Image => s.size = img.size ∧ s.pixels.length = img.pixels.length)
    (fun s : Image => s.pixels.getD t 0) color.val
    (fun yn : Nat => yn < img.size.y.toNat ∧
      yn * img.size.x.toNat ≤ t ∧ t < yn * img.size.x.toNat + img.size.x.toNat)
    (List.range (Image.ops.size img).y.toNat) img ?_ ?_ ?_ ⟨rfl, rfl⟩
  · refine hchar.trans ?_
    refine if_congr ?_ rfl rfl
    constructor
    · rintro ⟨yn, hm, hyr, hlo, hhi⟩
      have hkey : (yn + 1) * img.size.x.toNat ≤
          img.size.y.toNat * img.size.x.toNat :=
        mul_le_mul_right' (by omega) img.size.x.toNat
      rw [hlen]
      nlinarith
    · intro ht
      rw [hlen] at ht
      have hx0 : 0 < img.size.x.toNat := by
        rcases Nat.eq_zero_or_pos img.size.x.toNat with h0 | h0
        · rw [h0, Nat.zero_mul] at ht; omega
        · exact h0
      have hdm := Nat.div_add_mod t img.size.x.toNat
      have hmlt := Nat.mod_lt t hx0
      have hdiv : t / img.size.x.toNat < img.size.y.toNat := by
        refine (Nat.div_lt_iff_lt_mul hx0).mpr ?_
        rw [Nat.mul_comm img.size.y.toNat img.size.x.toNat]
        exact ht
      have hup : t < t / img.size.x.toNat * img.size.x.toNat +
          img.size.x.toNat := by
        calc t = img.size.x.toNat * (t / img.size.x.toNat) +
              t % img.size.x.toNat := hdm.symm
          _ < img.size.x.toNat * (t / img.size.x.toNat) +
              img.size.x.toNat := add_lt_add_left hmlt _
          _ = t / img.size.x.toNat * img.size.x.toNat +
              img.size.x.toNat := by rw [Nat.mul_comm]
      refine ⟨t / img.size.x.toNat, List.mem_range.mpr ?_, hdiv,
        Nat.div_mul_le_self t img.size.x.toNat, hup⟩
      show t / img.size.x.toNat < img.size.y.toNat
      exact hdiv
  · rintro s yn - hInv
    exact foldl_inv _ (fun u : Image => u.size = img.size ∧
      u.pixels.length = img.pixels.length) _ s
      (fun u xn _ hu => image_set_inv img u _ _ hu) hInv
  · rintro s yn - hInv ⟨hyr, hlo, hhi⟩
    refine Eq.trans (image_row_getD img color s yn hwx hInv t) ?_
    rw [if_pos ?_]
    refine ⟨t - yn * img.size.x.toNat, List.mem_range.mpr (by omega), by omega,
      ?_⟩
    have hkey : (yn + 1) * img.size.x.toNat ≤
        img.size.y.toNat * img.size.x.toNat :=
      mul_le_mul_right' (by omega) img.size.x.toNat
    rw [hlen]
    nlinarith
  · rintro s yn - hInv hH
    refine Eq.trans (image_row_getD img color s yn hwx hInv t) ?_
    rw [if_neg ?_]
    rintro ⟨xn, hxm, hie, hts⟩
    have hxr := List.mem_range.mp hxm
    rw [hlen] at hts
    refine hH ⟨?_, by omega, by omega⟩
    by_contra hyy
    have hkey : img.size.y.toNat * img.size.x.toNat ≤ yn * img.size.x.toNat :=
      mul_le_mul_right' (by omega) img.size.x.toNat
    nlinarith

/-- Image's overriding clear (slice fill) coincides, as a whole Image value,
with the default trait clear loop, on well-formed images. -/
theorem image_clear_eq (img : Image) (color : Color) (h : img.wf) :
    Surface.clear Image.ops img color = Image.clear img color := by
  have hinv := image_clear_loop_inv img color
  have hpix : (Surface.clear Image.ops img color).pixels =
      List.replicate img.pixels.length color.val := by
    refine List.ext_getElem ?_ ?_
    · rw [hinv.2, List.length_replicate]
    · intro n h1 h2
      have hn : n < img.pixels.length := by
        rw [← hinv.2]
        exact h1
      have hg := image_clear_loop_getD img color h n
      rw [if_pos hn] at hg
      rw [← List.getD_eq_getElem _ 0 h1, hg, List.getElem_replicate]
  calc Surface.clear Image.ops img color
      = ⟨(Surface.clear Image.ops img color).pixels,
         (Surface.clear Image.ops img color).size⟩ := rfl
    _ = ⟨List.replicate img.pixels.length color.val, img.size⟩ := by
        rw [hpix, hinv.1]
    _ = Image.clear img color := rfl

/-- Bitwise or of a shifted value with a small value is addition. -/
theorem shiftLeft_or_eq_add (hi lo k : Nat) (h : lo < 2 ^ k) :
    hi <<< k ||| lo = hi <<< k + lo := by
  rw [Nat.shiftLeft_eq, Nat.mul_comm hi (2 ^ k)]
  exact (Nat.mul_add_lt_is_or h hi).symm

/-- The packed word of from_rgba, in arithmetic form. -/
theorem from_rgba_val (r g b a : Nat) (hr : r < 256) (hg : g < 256)
    (hb : b < 256) :
    (Color.from_rgba r g b a).val =
      a * 16777216 + (r * 65536 + (g * 256 + b)) := by
  show (a <<< 24) ||| (r <<< 16) ||| (g <<< 8) ||| b = _
  rw [Nat.or_assoc, Nat.or_assoc]
  rw [shiftLeft_or_eq_add g b 8 (by omega), Nat.shiftLeft_eq g 8,
    show (2 : Nat) ^ 8 = 256 from by norm_num]
  rw [shiftLeft_or_eq_add r (g * 256 + b) 16 (by omega),
    Nat.shiftLeft_eq r 16, show (2 : Nat) ^ 16 = 65536 from by norm_num]
  rw [shiftLeft_or_eq_add a (r * 65536 + (g * 256 + b)) 24 (by omega),
    Nat.shiftLeft_eq a 24, show (2 : Nat) ^ 24 = 16777216 from by norm_num]

/-- The alpha accessor recovers the alpha byte of from_rgba. -/
theorem from_rgba_a (r g b a : Nat) (hr : r < 256) (hg : g < 256)
    (hb : b < 256) (ha : a < 256) :
    (Color.from_rgba r g b a).a = a := by
  show ((Color.from_rgba r g b a).val >>> 24) % 256 = a
  rw [from_rgba_val r g b a hr hg hb, Nat.shiftRight_eq_div_pow,
    show (2 : Nat) ^ 24 = 16777216 from by norm_num]
  omega

/-- Surface::blit dispatch equations: with dst_size omitted or equal to the
resolved src_size it calls blit_same_size, otherwise blit_scale, always on
the default-resolved parameters. -/
theorem surface_blit_dispatch {A B : Type} (opsA : SurfaceOps A)
    (opsB : SurfaceOps B) (dst : A) (src : B)
    (sp ssz dp : Option IVec2) :
    (Surface.blit opsA opsB dst src sp ssz dp none =
      blit_same_size opsA opsB dst src (sp.getD (ivec2 0 0))
        (dp.getD (ivec2 0 0)) (ssz.getD (opsB.size src))) ∧
    (∀ d : IVec2, d = ssz.getD (opsB.size src) →
      Surface.blit opsA opsB dst src sp ssz dp (some d) =
        blit_same_size opsA opsB dst src (sp.getD (ivec2 0 0))
          (dp.getD (ivec2 0 0)) d) ∧
    (∀ d : IVec2, d ≠ ssz.getD (opsB.size src) →
      Surface.blit opsA opsB dst src sp ssz dp (some d) =
        blit_scale opsA opsB dst src (sp.getD (ivec2 0 0))
          (ssz.getD (opsB.size src)) (dp.getD (ivec2 0 0)) d) := by
  refine ⟨rfl, ?_, ?_⟩
  · intro d hd
    simp only [Surface.blit]
    rw [if_pos hd]
  · intro d hd
    simp only [Surface.blit]
    rw [if_neg hd]

/-- Image::new is well formed. -/
theorem image_new_wf (w h : Nat) (c : Color) : (Image.new w h c).wf := by
  refine ⟨Int.natCast_nonneg w, Int.natCast_nonneg h, ?_⟩
  show (List.replicate (w * h) c.val).length =
    ((w : Int)).toNat * ((h : Int)).toNat
  rw [List.length_replicate, Int.toNat_natCast, Int.toNat_natCast]

/-- Every slot of a new Image holds the fill color. -/
theorem image_new_getD (w h : Nat) (c : Color) (i : Nat) (hi : i < w * h) :
    (Image.new w h c).pixels.getD i 0 = c.val := by
  show (List.replicate (w * h) c.val).getD i 0 = c.val
  rw [List.getD_eq_getElem _ _ (by simpa using hi), List.getElem_replicate]

/-- At an in-bounds position of a well-formed Image, the linear index
y*width+x is nonnegative and addresses a slot inside the backing storage. -/
theorem image_index_bound (img : Image) (h : img.wf) (pos : IVec2)
    (hp : inBounds img.size pos) :
    0 ≤ Surface.index pos img.size.x ∧
    (Surface.index pos img.size.x).toNat < img.pixels.length := by
  obtain ⟨hwx, hwy, hlen⟩ := h
  obtain ⟨hx0, hx1, hy0, hy1⟩ := hp
  unfold Surface.index
  have h1 : 0 ≤ pos.y * img.size.x := mul_nonneg hy0 hwx
  have hI0 : 0 ≤ pos.y * img.size.x + pos.x := by linarith
  refine ⟨hI0, ?_⟩
  have h2 : pos.y * img.size.x + pos.x < img.size.x * img.size.y := by
    nlinarith [mul_le_mul_of_nonneg_right
      (show pos.y ≤ img.size.y - 1 from by omega) hwx]
  have h3 : ((img.size.x.toNat * img.size.y.toNat : Nat) : Int) =
      img.size.x * img.size.y := by
    push_cast
    rw [Int.toNat_of_nonneg hwx, Int.toNat_of_nonneg hwy]
  rw [hlen]
  refine (Int.toNat_lt hI0).mpr ?_
  rw [h3]
  exact h2

/-- Image set_pixel preserves well-formedness. -/
theorem image_set_pixel_wf (img : Image) (q : IVec2) (c : Color)
    (h : img.wf) : (Image.set_pixel img q c).wf := by
  obtain ⟨h1, h2, h3⟩ := h
  refine ⟨h1, h2, ?_⟩
  show (img.pixels.set (Surface.index q img.size.x).toNat c.val).length = _
  rw [List.length_set]
  exact h3

/-- Both clears preserve well-formedness of an Image. -/
theorem image_clear_wf (img : Image) (c : Color) (h : img.wf) :
    (Image.clear img c).wf ∧ (Surface.clear Image.ops img c).wf := by
  obtain ⟨h1, h2, h3⟩ := h
  constructor
  · refine ⟨h1, h2, ?_⟩
    show (List.replicate img.pixels.length c.val).length = _
    rw [List.length_replicate]
    exact h3
  · have hinv := image_clear_loop_inv img c
    refine ⟨by rw [hinv.1]; exact h1, by rw [hinv.1]; exact h2, ?_⟩
    rw [hinv.2, hinv.1]
    exact h3

/-- blit_same_size between Images preserves the destination invariant. -/
theorem image_blit_same_size_wf (dst src : Image) (sp dp size : IVec2)
    (h : dst.wf) :
    (blit_same_size Image.ops Image.ops dst src sp dp size).dst.wf :=
  sameSize_dst_inv Image.ops Image.ops Image.wf
    (fun s q c hs => image_set_pixel_wf s q c hs) dst src sp dp size h

/-- blit_scale between Images preserves the destination invariant. -/
theorem image_blit_scale_wf (dst src : Image) (sp ssz dp dsz : IVec2)
    (h : dst.wf) :
    (blit_scale Image.ops Image.ops dst src sp ssz dp dsz).dst.wf :=
  scale_dst_inv Image.ops Image.ops Image.wf
    (fun s q c hs => image_set_pixel_wf s q c hs) dst src sp ssz dp dsz h

/-- Surface::blit between Images preserves the destination invariant,
whatever optional arguments are supplied. -/
theorem image_blit_wf (dst src : Image) (sp ssz dp dsz : Option IVec2)
    (h : dst.wf) :
    (Surface.blit Image.ops Image.ops dst src sp ssz dp dsz).dst.wf := by
  rcases dsz with _ | d
  · exact image_blit_same_size_wf dst src _ _ _ h
  · simp only [Surface.blit]
    split_ifs
    · exact image_blit_same_size_wf dst src _ _ _ h
    · exact image_blit_scale_wf dst src _ _ _ _ h

/-- A 1x1 opaque source used by concrete instantiations. -/
def srcUnit : Surf := ⟨ivec2 1 1, fun _ => ⟨4278190080⟩⟩

/-- A 1x1 sentinel destination used by concrete instantiations. -/
def dstUnit : Surf := ⟨ivec2 1 1, fun _ => ⟨7⟩⟩

/-- A 10x10 fully opaque source whose pixel values encode their position. -/
def srcClip : Surf :=
  ⟨ivec2 10 10, fun p => ⟨4278190080 + p.x.toNat % 16 * 16 + p.y.toNat % 16⟩⟩

/-- A 10x10 destination prefilled with a sentinel color. -/
def dstClip : Surf := ⟨ivec2 10 10, fun _ => ⟨7⟩⟩

/-- A 4x1 opaque source [A,B,C,D] whose pixels encode their column. -/
def srcScale : Surf := ⟨ivec2 4 1, fun p => ⟨4278190080 + p.x.toNat % 16⟩⟩

/-- A 2x1 sentinel destination for the scale-down example. -/
def dstScale : Surf := ⟨ivec2 2 1, fun _ => ⟨7⟩⟩

/-- C1: for every destination and source surface and every src_pos, dst_pos
and size, and every offset (x,y) inside the requested rectangle such that
dst_pos+(x,y) is inside the destination and src_pos+(x,y) is inside the
source, blit_same_size writes the source pixel at src_pos+(x,y) verbatim
(all channels) to the destination at dst_pos+(x,y) exactly when that source
pixel's alpha is not 0, and leaves the destination pixel unchanged when the
alpha is exactly 0. -/
theorem C1_same_size_alpha_key (dst src : Surf) (sp dp size : IVec2)
    (x y : Int) (hx0 : 0 ≤ x) (hx1 : x < size.x) (hy0 : 0 ≤ y)
    (hy1 : y < size.y)
    (hd : inBounds dst.size (ivec2 (dp.x + x) (dp.y + y)))
    (hs : inBounds src.size (ivec2 (sp.x + x) (sp.y + y))) :
    ((src.pix (ivec2 (sp.x + x) (sp.y + y))).a ≠ 0 →
      (blit_same_size Surf.ops Surf.ops dst src sp dp size).dst.pix
          (ivec2 (dp.x + x) (dp.y + y)) =
        src.pix (ivec2 (sp.x + x) (sp.y + y))) ∧
    ((src.pix (ivec2 (sp.x + x) (sp.y + y))).a = 0 →
      (blit_same_size Surf.ops Surf.ops dst src sp dp size).dst.pix
          (ivec2 (dp.x + x) (dp.y + y)) =
        dst.pix (ivec2 (dp.x + x) (dp.y + y))) := by
  have hsrc : sameSizeSrcPos sp dp (ivec2 (dp.x + x) (dp.y + y)) =
      ivec2 (sp.x + x) (sp.y + y) := by
    unfold sameSizeSrcPos
    simp only [ivec2, IVec2.mk.injEq]
    omega
  constructor
  · intro ha
    have hhit : sameSizeHit dst src sp dp size (ivec2 (dp.x + x) (dp.y + y)) := by
      unfold sameSizeHit
      rw [hsrc]
      simp only [ivec2]
      exact ⟨by omega, by omega, by omega, by omega, hd, hs, ha⟩
    rw [sameSize_pix_char, if_pos hhit, hsrc]
  · intro ha
    rw [sameSize_pix_char, if_neg ?_]
    rintro ⟨-, -, -, -, -, -, ha'⟩
    rw [hsrc] at ha'
    exact ha' ha

/-- C1 witness: the theorem applied at a concrete 1x1 opaque blit. -/
theorem C1_same_size_alpha_key_witness :
    ((srcUnit.pix (ivec2 (0 + 0) (0 + 0))).a ≠ 0 →
      (blit_same_size Surf.ops Surf.ops dstUnit srcUnit (ivec2 0 0)
          (ivec2 0 0) (ivec2 1 1)).dst.pix (ivec2 (0 + 0) (0 + 0)) =
        srcUnit.pix (ivec2 (0 + 0) (0 + 0))) ∧
    ((srcUnit.pix (ivec2 (0 + 0) (0 + 0))).a = 0 →
      (blit_same_size Surf.ops Surf.ops dstUnit srcUnit (ivec2 0 0)
          (ivec2 0 0) (ivec2 1 1)).dst.pix (ivec2 (0 + 0) (0 + 0)) =
        dstUnit.pix (ivec2 (0 + 0) (0 + 0))) :=
  C1_same_size_alpha_key dstUnit srcUnit (ivec2 0 0) (ivec2 0 0) (ivec2 1 1)
    0 0 (by decide) (by decide) (by decide) (by decide) (by decide) (by decide)

/-- C2: after blit_same_size every destination pixel that is not of the form
dst_pos+(x,y) with (x,y) in the requested rectangle and src_pos+(x,y) inside
the source bounds is unchanged; and the concrete clipping example: blitting
a 10x10 opaque source at destination position (-5,-5) onto a 10x10
destination writes exactly the top-left 5x5 destination region, sampling the
source's bottom-right quadrant, and leaves every other pixel untouched. -/
theorem C2_same_size_frame_and_clip :
    (∀ (dst src : Surf) (sp dp size : IVec2) (p : IVec2),
      (¬ ∃ x y : Int, 0 ≤ x ∧ x < size.x ∧ 0 ≤ y ∧ y < size.y ∧
        p = ivec2 (dp.x + x) (dp.y + y) ∧
        inBounds src.size (ivec2 (sp.x + x) (sp.y + y))) →
      (blit_same_size Surf.ops Surf.ops dst src sp dp size).dst.pix p =
        dst.pix p) ∧
    (∀ x ∈ List.range 10, ∀ y ∈ List.range 10,
      (blit_same_size Surf.ops Surf.ops dstClip srcClip (ivec2 0 0)
          (ivec2 (-5) (-5)) (ivec2 10 10)).dst.pix (ivec2 x y) =
        if x < 5 ∧ y < 5 then srcClip.pix (ivec2 (x + 5) (y + 5))
        else dstClip.pix (ivec2 x y)) := by
  constructor
  · intro dst src sp dp size p h
    rw [sameSize_pix_char, if_neg ?_]
    rintro ⟨ha1, ha2, ha3, ha4, -, hsb, -⟩
    refine h ⟨p.x - dp.x, p.y - dp.y, ha1, ha2, ha3, ha4, ?_, hsb⟩
    rw [ivec2, show dp.x + (p.x - dp.x) = p.x from by omega,
      show dp.y + (p.y - dp.y) = p.y from by omega]
  · decide

/-- A 3x1 opaque source whose pixel values encode their column, for the C3
counterexample. -/
def srcTri : Surf := ⟨ivec2 3 1, fun p => ⟨4278190080 + p.x.toNat % 16⟩⟩

/-- A 2^25 x 1 destination prefilled with a sentinel, for the C3
counterexample. -/
def dstWide : Surf := ⟨ivec2 33554432 1, fun _ => ⟨7⟩⟩

/-- C3 counterexample: the claim's sampling formula floor(x*src.x/dst.x) is
not what the f32 computation produces. Scaling a 3x1 source to a 2^25 x 1
destination, destination column 2^25-1 is written from source column 3:
33554431 as f32 rounds up to 2^25 and 2^25 * (3*2^-25) is exactly 3.0 in
f32, while floor((2^25-1)*3 / 2^25) = 2, and the source pixels at columns 3
and 2 differ. -/
theorem C3_counterexample :
    (blit_scale Surf.ops Surf.ops dstWide srcTri (ivec2 0 0) (ivec2 3 1)
        (ivec2 0 0) (ivec2 33554432 1)).dst.pix (ivec2 33554431 0) =
      srcTri.pix (ivec2 3 0) ∧
    (33554431 * 3 : Int) / 33554432 = 2 ∧
    srcTri.pix (ivec2 3 0) ≠ srcTri.pix (ivec2 2 0) := by
  refine ⟨?_, by decide, by decide⟩
  rw [scale_pix_char, if_pos (show scaleHit dstWide srcTri (ivec2 0 0)
    (ivec2 3 1) (ivec2 0 0) (ivec2 33554432 1) (ivec2 33554431 0)
    from by decide)]
  decide

/-- C3 amended: each non-clipped destination pixel of blit_scale is taken
from the source pixel at src_pos + scaleIndex per axis, where scaleIndex is
the truncating i32 cast of the f32 product x * (src_size as f32 / dst_size
as f32) exactly as the code computes it (this equals floor of the exact
ratio whenever the f32 arithmetic is exact, as in the example, but not in
general), subject to the same alpha-key rule; and the concrete example:
scaling the 4x1 source [A,B,C,D] to a 2x1 destination yields [A,C]. -/
theorem C3_scale_sampling :
    (∀ (dst src : Surf) (sp ssz dp dsz : IVec2) (x y : Int),
      0 < dsz.x → 0 < dsz.y → 0 ≤ x → x < dsz.x → 0 ≤ y → y < dsz.y →
      inBounds dst.size (ivec2 (dp.x + x) (dp.y + y)) →
      ((src.pix (ivec2 (sp.x + scaleIndex x ssz.x dsz.x)
          (sp.y + scaleIndex y ssz.y dsz.y))).a ≠ 0 →
        (blit_scale Surf.ops Surf.ops dst src sp ssz dp dsz).dst.pix
            (ivec2 (dp.x + x) (dp.y + y)) =
          src.pix (ivec2 (sp.x + scaleIndex x ssz.x dsz.x)
            (sp.y + scaleIndex y ssz.y dsz.y))) ∧
      ((src.pix (ivec2 (sp.x + scaleIndex x ssz.x dsz.x)
          (sp.y + scaleIndex y ssz.y dsz.y))).a = 0 →
        (blit_scale Surf.ops Surf.ops dst src sp ssz dp dsz).dst.pix
            (ivec2 (dp.x + x) (dp.y + y)) =
          dst.pix (ivec2 (dp.x + x) (dp.y + y)))) ∧
    ((blit_scale Surf.ops Surf.ops dstScale srcScale (ivec2 0 0) (ivec2 4 1)
        (ivec2 0 0) (ivec2 2 1)).dst.pix (ivec2 0 0) =
      srcScale.pix (ivec2 0 0) ∧
     (blit_scale Surf.ops Surf.ops dstScale srcScale (ivec2 0 0) (ivec2 4 1)
        (ivec2 0 0) (ivec2 2 1)).dst.pix (ivec2 1 0) =
      srcScale.pix (ivec2 2 0)) := by
  constructor
  · intro dst src sp ssz dp dsz x y hdx hdy hx0 hx1 hy0 hy1 hd
    have hsrc : scaleSrcPos sp ssz dp dsz (ivec2 (dp.x + x) (dp.y + y)) =
        ivec2 (sp.x + scaleIndex x ssz.x dsz.x)
          (sp.y + scaleIndex y ssz.y dsz.y) := by
      unfold scaleSrcPos
      simp only [ivec2, IVec2.mk.injEq]
      rw [show dp.x + x - dp.x = x from by omega,
        show dp.y + y - dp.y = y from by omega]
      exact ⟨rfl, rfl⟩
    constructor
    · intro ha
      have hhit : scaleHit dst src sp ssz dp dsz
          (ivec2 (dp.x + x) (dp.y + y)) := by
        unfold scaleHit
        rw [hsrc]
        simp only [ivec2]
        exact ⟨by omega, by omega, by omega, by omega, hd, ha⟩
      rw [scale_pix_char, if_pos hhit, hsrc]
    · intro ha
      rw [scale_pix_char, if_neg ?_]
      rintro ⟨-, -, -, -, -, ha'⟩
      rw [hsrc] at ha'
      exact ha' ha
  · constructor
    · decide
    · decide

/-- C4 counterexample: the claim's hypothesis (0 ≤ src_pos and
src_pos + src_size ≤ src.size) is satisfied by src_pos=(1,0),
src_size=(0,1) on a 1x1 source, yet blit_scale reads the out-of-bounds
source position (1,0). -/
theorem C4_counterexample :
    (0 ≤ (ivec2 1 0).x ∧ 0 ≤ (ivec2 1 0).y ∧
      (ivec2 1 0).x + (ivec2 0 1).x ≤ srcUnit.size.x ∧
      (ivec2 1 0).y + (ivec2 0 1).y ≤ srcUnit.size.y) ∧
    ∃ q ∈ (blit_scale Surf.ops Surf.ops dstUnit srcUnit (ivec2 1 0)
      (ivec2 0 1) (ivec2 0 0) (ivec2 1 1)).reads,
      ¬ inBounds srcUnit.size q := by
  refine ⟨by decide, ivec2 1 0, by decide, by decide⟩

/-- C4 amended: blit_same_size never calls get_pixel outside the source's
reported bounds nor set_pixel outside the destination's reported bounds, and
blit_scale never calls set_pixel outside the destination's reported bounds,
all without any hypothesis; the original claim's read-safety for blit_scale
is dropped, since its computed source coordinate is not bounds-checked and
can leave the source even for an in-bounds requested region (degenerate
src_size, see the counterexample, or f32 rounding at large sizes, see
C3's counterexample where the sampled offset reaches src_size.x). -/
theorem C4_amended_blit_access_safety {A B : Type} (opsA : SurfaceOps A)
    (opsB : SurfaceOps B) (dst : A) (src : B) (sp ssz dp dsz size : IVec2) :
    (∀ q ∈ (blit_same_size opsA opsB dst src sp dp size).reads,
      inBounds (opsB.size src) q) ∧
    (∀ q ∈ (blit_same_size opsA opsB dst src sp dp size).writes,
      inBounds (opsA.size dst) q) ∧
    (∀ q ∈ (blit_scale opsA opsB dst src sp ssz dp dsz).writes,
      inBounds (opsA.size dst) q) := by
  obtain ⟨hr, hw⟩ := sameSize_trace_bounds opsA opsB dst src sp dp size
  exact ⟨hr, hw, scale_writes_bounds opsA opsB dst src sp ssz dp dsz⟩

/-- C5: Surface::blit resolves omitted parameters to the defaults (origin
positions, full source size) and dispatches: with dst_size omitted it calls
blit_same_size on the resolved src_size; with dst_size equal to the
resolved src_size it calls blit_same_size; otherwise it calls blit_scale on
the six resolved parameters, performing no other computation. -/
theorem C5_blit_dispatch :
    ∀ {A B : Type} (opsA : SurfaceOps A) (opsB : SurfaceOps B) (dst : A)
      (src : B) (sp ssz dp : Option IVec2),
    (Surface.blit opsA opsB dst src sp ssz dp none =
      blit_same_size opsA opsB dst src (sp.getD (ivec2 0 0))
        (dp.getD (ivec2 0 0)) (ssz.getD (opsB.size src))) ∧
    (∀ d : IVec2, d = ssz.getD (opsB.size src) →
      Surface.blit opsA opsB dst src sp ssz dp (some d) =
        blit_same_size opsA opsB dst src (sp.getD (ivec2 0 0))
          (dp.getD (ivec2 0 0)) d) ∧
    (∀ d : IVec2, d ≠ ssz.getD (opsB.size src) →
      Surface.blit opsA opsB dst src sp ssz dp (some d) =
        blit_scale opsA opsB dst src (sp.getD (ivec2 0 0))
          (ssz.getD (opsB.size src)) (dp.getD (ivec2 0 0)) d) :=
  fun opsA opsB dst src sp ssz dp =>
    surface_blit_dispatch opsA opsB dst src sp ssz dp

/-- C6: for all byte channels, as_u32 of from_rgba is the packed word
A shl 24 or R shl 16 or G shl 8 or B; from_u32 of that word is the original
color (exact inverses); the alpha accessor returns a; and from_rgb equals
from_rgba with alpha 255. -/
theorem C6_color_pack_roundtrip (r g b a : Nat) (hr : r < 256) (hg : g < 256)
    (hb : b < 256) (ha : a < 256) :
    (Color.from_rgba r g b a).as_u32 =
      (a <<< 24) ||| (r <<< 16) ||| (g <<< 8) ||| b ∧
    Color.from_u32 ((Color.from_rgba r g b a).as_u32) =
      Color.from_rgba r g b a ∧
    (Color.from_rgba r g b a).a = a ∧
    Color.from_rgb r g b = Color.from_rgba r g b 255 :=
  ⟨rfl, rfl, from_rgba_a r g b a hr hg hb ha, rfl⟩

/-- C6 witness: the round-trip theorem applied at concrete channels. -/
theorem C6_color_pack_roundtrip_witness :
    (Color.from_rgba 16 32 64 128).as_u32 =
      ((128 : Nat) <<< 24) ||| ((16 : Nat) <<< 16) |||
        ((32 : Nat) <<< 8) ||| (64 : Nat) ∧
    Color.from_u32 ((Color.from_rgba 16 32 64 128).as_u32) =
      Color.from_rgba 16 32 64 128 ∧
    (Color.from_rgba 16 32 64 128).a = 128 ∧
    Color.from_rgb 16 32 64 = Color.from_rgba 16 32 64 255 :=
  C6_color_pack_roundtrip 16 32 64 128 (by decide) (by decide) (by decide)
    (by decide)

/-- C7: a blit whose iterated region has a zero or negative dimension
(size for blit_same_size, dst_size for blit_scale) performs no get_pixel and
no set_pixel calls at all and leaves the destination untouched; in
particular blit_scale with a zero dst_size dimension, whose f32 step
computation would divide by zero, makes no reads or writes (the model is
total, so no panic is possible). -/
theorem C7_zero_size_noop :
    ∀ {A B : Type} (opsA : SurfaceOps A) (opsB : SurfaceOps B) (dst : A)
      (src : B) (sp ssz dp dsz size : IVec2),
    (size.x ≤ 0 ∨ size.y ≤ 0 →
      blit_same_size opsA opsB dst src sp dp size = ⟨dst, [], []⟩) ∧
    (dsz.x ≤ 0 ∨ dsz.y ≤ 0 →
      blit_scale opsA opsB dst src sp ssz dp dsz = ⟨dst, [], []⟩) :=
  fun opsA opsB dst src sp ssz dp dsz size =>
    ⟨sameSize_zero opsA opsB dst src sp dp size,
     scale_zero opsA opsB dst src sp ssz dp dsz⟩

/-- C8: after clear, every in-bounds pixel of a surface reads back the clear
color and the size is unchanged; and on well-formed Images the overriding
slice-fill clear is equal, as a whole Image, to the default trait loop that
set_pixels every position row-major. -/
theorem C8_clear_correct :
    (∀ (s : Surf) (color : Color),
      (Surface.clear Surf.ops s color).size = s.size ∧
      ∀ p : IVec2, inBounds s.size p →
        (Surface.clear Surf.ops s color).pix p = color) ∧
    (∀ (img : Image) (color : Color), img.wf →
      Image.clear img color = Surface.clear Image.ops img color) := by
  constructor
  · intro s color
    refine ⟨clear_size_surf s color, ?_⟩
    intro p hp
    rw [clear_pix_char, if_pos hp]
  · intro img color h
    exact (image_clear_eq img color h).symm

/-- C9: Image::new (under the u32 no-overflow precondition) establishes the
storage invariant pixels.length = width*height with every pixel the fill
color; the invariant is preserved by set_pixel, both clears, and any blit in
which the Image participates; and at any in-bounds position the linear index
y*width+x is within the storage and is the slot get_pixel reads and
set_pixel writes. -/
theorem C9_image_storage_invariant :
    (∀ (w h : Nat) (c : Color), w * h < 4294967296 →
      (Image.new w h c).pixels.length = w * h ∧
      (Image.new w h c).size = ivec2 w h ∧
      (∀ i : Nat, i < w * h → (Image.new w h c).pixels.getD i 0 = c.val) ∧
      (Image.new w h c).wf) ∧
    (∀ (img : Image) (q : IVec2) (c : Color), img.wf →
      (Image.set_pixel img q c).wf) ∧
    (∀ (img : Image) (c : Color), img.wf →
      (Image.clear img c).wf ∧ (Surface.clear Image.ops img c).wf) ∧
    (∀ (dst src : Image) (sp ssz dp dsz : Option IVec2), dst.wf →
      (Surface.blit Image.ops Image.ops dst src sp ssz dp dsz).dst.wf) ∧
    (∀ (dst src : Image) (sp dp size : IVec2), dst.wf →
      (blit_same_size Image.ops Image.ops dst src sp dp size).dst.wf) ∧
    (∀ (dst src : Image) (sp ssz dp dsz : IVec2), dst.wf →
      (blit_scale Image.ops Image.ops dst src sp ssz dp dsz).dst.wf) ∧
    (∀ (img : Image) (pos : IVec2) (c : Color), img.wf →
      inBounds img.size pos →
      Surface.index pos img.size.x = pos.y * img.size.x + pos.x ∧
      (Surface.index pos img.size.x).toNat < img.pixels.length ∧
      Image.get_pixel img pos = Color.from_u32
        (img.pixels.getD (Surface.index pos img.size.x).toNat 0) ∧
      Image.set_pixel img pos c = ⟨img.pixels.set
        (Surface.index pos img.size.x).toNat c.val, img.size⟩) := by
  refine ⟨?_, ?_, ?_, ?_, ?_, ?_, ?_⟩
  · intro w h c _
    exact ⟨by show (List.replicate (w * h) c.val).length = w * h
              rw [List.length_replicate],
           rfl, fun i hi => image_new_getD w h c i hi, image_new_wf w h c⟩
  · intro img q c h
    exact image_set_pixel_wf img q c h
  · intro img c h
    exact image_clear_wf img c h
  · intro dst src sp ssz dp dsz h
    exact image_blit_wf dst src sp ssz dp dsz h
  · intro dst src sp dp size h
    exact image_blit_same_size_wf dst src sp dp size h
  · intro dst src sp ssz dp dsz h
    exact image_blit_scale_wf dst src sp ssz dp dsz h
  · intro img pos c h hp
    exact ⟨rfl, (image_index_bound img h pos hp).2, rfl, rfl⟩

/-- C10: blit_scale performs no bounds check of the computed source sampling
coordinate: there are arguments with a negative src_pos component, positive
src_size and dst_size and an in-bounds dst_pos for which it calls get_pixel
outside the source's bounds; by contrast blit_same_size never reads outside
the source's bounds for any arguments whatsoever. -/
theorem C10_scale_reads_oob_same_size_safe :
    (∃ (dst src : Surf) (sp ssz dp dsz : IVec2),
      sp.x < 0 ∧ 0 < ssz.x ∧ 0 < ssz.y ∧ 0 < dsz.x ∧ 0 < dsz.y ∧
      inBounds dst.size dp ∧
      ∃ q ∈ (blit_scale Surf.ops Surf.ops dst src sp ssz dp dsz).reads,
        ¬ inBounds src.size q) ∧
    (∀ (A B : Type) (opsA : SurfaceOps A) (opsB : SurfaceOps B) (dst : A)
      (src : B) (sp dp size : IVec2),
      ∀ q ∈ (blit_same_size opsA opsB dst src sp dp size).reads,
        inBounds (opsB.size src) q) := by
  constructor
  · exact ⟨dstUnit, srcUnit, ivec2 (-1) 0, ivec2 1 1, ivec2 0 0, ivec2 1 1,
      by decide, by decide, by decide, by decide, by decide, by decide,
      ivec2 (-1) 0, by decide, by decide⟩
  · intro A B opsA opsB dst src sp dp size
    exact (sameSize_trace_bounds opsA opsB dst src sp dp size).1

end Soft2D
